import Mathlib

/-!
Verification of the translation-and-aggregation engine of
`coveo/awslimitchecker` (`prometheus.py`) against its specification.

The Python module is shallowly embedded: Python strings become `List Char`
(the names handled by the program are ASCII, so `str.lower` is modelled by
the ASCII case mapping `Char.toLower`), the `prometheus_client` collaborator
is modelled at its boundary (a gauge is a named last-write-wins map from
label-value tuples to numbers), exceptions become explicit `Option`/`Except`
values that the embedded `update` catches exactly where the Python
`try/except` does, and the process-global `gauges` dict becomes an explicit
`Registry` value threaded through the functions.
-/

set_option autoImplicit false

namespace ALC

/-- A Python string, modelled as its list of characters. -/
abbrev Str := List Char

/-- Embedding of Python `str.lower` (ASCII case mapping, per character). -/
def pyLower (s : Str) : Str := s.map Char.toLower

/-- `trantab = str.maketrans(' -.', '___', '()')` (prometheus.py line 24):
each of space, `-`, `.` maps to `_`; `(` and `)` are deleted; every other
character maps to itself. -/
def trantab (c : Char) : Option Char :=
  if c = ' ' ∨ c = '-' ∨ c = '.' then some '_'
  else if c = '(' ∨ c = ')' then none
  else some c

/-- Embedding of Python `str.translate(trantab)`: one left-to-right pass
applying the table to each character. -/
def pyTranslate (s : Str) : Str := s.filterMap trantab

/-- `path.lower().translate(trantab)`, the normalization applied inside
`gauge` (line 119) and to `limit_path` in `update_ec2_on_demand` (line 95). -/
def normPath (s : Str) : Str := pyTranslate (pyLower s)

/-- `'.'.join([service, limit_name])` (lines 80 and 94). -/
def joinDot (service limit_name : Str) : Str := service ++ '.' :: limit_name

/-- Embedding of Python `str.split(sep)` with an explicit one-character
separator: splits on every occurrence, keeping empty segments
(`''.split(c) = ['']`). -/
def pySplit (sep : Char) : Str → List Str
  | [] => [[]]
  | c :: rest =>
    match pySplit sep rest with
    | [] => [[]]
    | g :: gs => if c = sep then [] :: g :: gs else (c :: g) :: gs

/-- Embedding of Python `needle in hay` on strings (contiguous substring). -/
def isSubstr (needle : Str) : Str → Bool
  | [] => needle.isEmpty
  | c :: rest => needle.isPrefixOf (c :: rest) || isSubstr needle rest

/-- Python `<` on strings: lexicographic by character code point. -/
def strLt : Str → Str → Bool
  | [], [] => false
  | [], _ :: _ => true
  | _ :: _, [] => false
  | a :: as, b :: bs =>
    if a.toNat < b.toNat then true
    else if a.toNat = b.toNat then strLt as bs else false

/-- Stable insertion of one keyed entry into a key-sorted list (helper for
the embedding of Python `sorted` on `dict.items()`). -/
def insertByKey {β : Type} (x : Str × β) : List (Str × β) → List (Str × β)
  | [] => [x]
  | y :: ys => if strLt y.1 x.1 then y :: insertByKey x ys else x :: y :: ys

/-- Embedding of Python `sorted(d.items())` for a dict with (distinct)
string keys: stable sort ascending by key. -/
def sortByKey {β : Type} (l : List (Str × β)) : List (Str × β) :=
  l.foldr insertByKey []

/-- Characters Python `int(...)` strips from both ends of its argument. -/
def isPySpace (c : Char) : Bool :=
  c = ' ' ∨ c = '\t' ∨ c = '\n' ∨ c = '\r'

/-- Numeric value of a string of ASCII digits. -/
def digitsToNat (s : Str) : Nat := s.foldl (fun n c => n * 10 + (c.toNat - 48)) 0

/-- Embedding of Python `int(str)` (restricted to ASCII decimal literals:
optional surrounding whitespace, optional sign, a nonempty run of digits;
digit-group underscores and non-ASCII digits are out of the program's input
domain and not modelled). `none` models `int` raising `ValueError`. -/
def pyInt (s : Str) : Option Int :=
  match ((s.dropWhile isPySpace).reverse.dropWhile isPySpace).reverse with
  | [] => none
  | c :: ds =>
    if c = '+' then
      if ds ≠ [] ∧ ds.all Char.isDigit then some (digitsToNat ds) else none
    else if c = '-' then
      if ds ≠ [] ∧ ds.all Char.isDigit then some (-(digitsToNat ds : Int)) else none
    else if (c :: ds).all Char.isDigit then some (digitsToNat (c :: ds)) else none

/-- The Python exceptions the module can raise or catch. -/
inductive PyErr where
  /-- `IndexError` from an out-of-range `[i]` on a `split` result. -/
  | indexError
  /-- `ValueError` from `int(...)` on a non-numeric string. -/
  | valueError
  /-- `StopIteration` from `next(...)` on an exhausted generator. -/
  | stopIteration
  /-- Any exception raised by the usage-checking backend during `find_usage`. -/
  | backendError (msg : Str)
deriving DecidableEq, Repr

/-- The record built by `_Limit_Override.__init__` (lines 27-48): the four
read-only fields. -/
structure LimitOverride where
  region : Str
  service : Str
  limit_name : Str
  value : Int
deriving DecidableEq, Repr

/-- `_Limit_Override.__init__(item)` (lines 28-32), statements in order:
`region = item.split('/')[0]`, `service = item.split('/')[1]`,
`limit_name = item.split('=')[0].split('/')[2]`,
`value = int(item.split('=')[1])`; the first failing indexing or `int`
raises. (`split('/')[0]` never fails: `split` always returns at least one
segment.) -/
def parseOverride (item : Str) : Except PyErr LimitOverride :=
  let slashes := pySplit '/' item
  let eqs := pySplit '=' item
  let region := slashes.headD []
  match slashes[1]? with
  | none => .error .indexError
  | some service =>
    match (pySplit '/' (eqs.headD []))[2]? with
    | none => .error .indexError
    | some limit_name =>
      match eqs[1]? with
      | none => .error .indexError
      | some vs =>
        match pyInt vs with
        | none => .error .valueError
        | some v => .ok ⟨region, service, limit_name, v⟩

/-- One step of the overrides comprehension: a line qualifies only when it
contains `'='`; a qualifying line is parsed (its exception propagating) and
its record added, a non-qualifying line is skipped. -/
def overrideStep (acc : List LimitOverride) (item : Str) :
    Except PyErr (List LimitOverride) :=
  if item.contains '=' then do
    let o ← parseOverride item
    pure (acc ++ [o])
  else pure acc

/-- The overrides comprehension of `_get_configs` (line 141):
`{_Limit_Override(item) for item in text.split('\n') if '=' in item}`,
evaluated left to right over the lines.
`_Limit_Override` defines neither `__eq__` nor `__hash__`, so the Python
`set` compares its elements by object identity and holds exactly one
freshly-constructed record per qualifying line; the set is therefore
modelled as the list of those records in line order (the unordered
collection is this list up to permutation), the first raising line
propagating its exception. -/
def overridesOfLines (lines : List Str) : Except PyErr (List LimitOverride) :=
  lines.foldlM overrideStep []

/-- `text.split('\n')` fed through the comprehension. -/
def getOverrides (text : Str) : Except PyErr (List LimitOverride) :=
  overridesOfLines (pySplit '\n' text)

/-- A `prometheus_client` `Gauge`, modelled at the collaborator boundary: the
label names fixed at construction, and a last-write-wins map from
label-value tuples (listed in label-name order) to the value last `set`. -/
structure PGauge where
  labelNames : List Str
  values : List (List Str × Int)
deriving DecidableEq, Repr

/-- The module-global `gauges` dict (line 23), keyed by normalized path. -/
abbrev Registry := List (Str × PGauge)

/-- `gauges.get(path, None)`. -/
def regFind (st : Registry) (p : Str) : Option PGauge :=
  (st.find? (fun kv => kv.1 == p)).map (·.2)

/-- One `g.labels(...).set(x)` write into a gauge's value map: the write for
a label tuple replaces any earlier value at the same tuple. -/
def setValue (vals : List (List Str × Int)) (lv : List Str) (x : Int) :
    List (List Str × Int) :=
  (lv, x) :: vals.filter (fun e => !(e.1 == lv))

/-- Value of a gauge at one label tuple. -/
def lookupVal (vals : List (List Str × Int)) (lv : List Str) : Option Int :=
  (vals.find? (fun e => e.1 == lv)).map (·.2)

/-- `g.labels(...).set(x)` where `g` is the gauge registered at (normalized)
path `p`; a no-op on gauges at other paths. -/
def setG (st : Registry) (p : Str) (lv : List Str) (x : Int) : Registry :=
  st.map (fun kv =>
    if kv.1 == p then (kv.1, ⟨kv.2.labelNames, setValue kv.2.values lv x⟩) else kv)

/-- `gauge(path, extra_labels)` (lines 118-125): normalize the path; if a
gauge is registered there return it, otherwise create one with label names
`['region', 'type'] + extra_labels` and an empty value map and register it.
Returns the registry key of the obtained gauge (the handle) and the
possibly-grown registry. -/
def gauge (path : Str) (extra_labels : Option (List Str) := none) (st : Registry) :
    Str × Registry :=
  let p := normPath path
  match regFind st p with
  | some _ => (p, st)
  | none =>
    let labels := [("region").data, ("type").data] ++ extra_labels.getD []
    (p, st ++ [(p, ⟨labels, []⟩)])

/-- One element of `limit.get_current_usage()`: a numeric value and an
optional resource identifier (the Python attribute may be `None` or an
empty string, both falsy). -/
structure AwsLimitUsage where
  value : Int
  resource_id : Option Str
deriving DecidableEq, Repr

/-- One `AwsLimit` as seen by the module: `get_limit()` and
`get_current_usage()`. -/
structure AwsLimit where
  limit : Int
  current_usage : List AwsLimitUsage
deriving DecidableEq, Repr

/-- The `metric_type` computed in `update_service` (lines 112-114):
`'current'`, overridden by `resource.resource_id` when that is truthy
(non-`None` and non-empty). -/
def metricTypeOf (r : AwsLimitUsage) : Str :=
  match r.resource_id with
  | some rid => if rid = [] then ("current").data else rid
  | none => ("current").data

/-- `update_service(path, usage, limit, region)` (lines 107-115): obtain the
gauge at the normalized path (no extra labels), set `{region, type='limit'}`
to the ceiling, then for each usage entry in order set
`{region, type=metric_type}` to its value. -/
def update_service (path : Str) (usage : List AwsLimitUsage) (limit : Int)
    (region : Str) (st : Registry) : Registry :=
  let pst := gauge path none st
  let st := setG pst.2 pst.1 [region, ("limit").data] limit
  usage.foldl (fun st r => setG st pst.1 [region, metricTypeOf r] r.value) st

/-- The fixed path of the EC2 on-demand aggregate gauge (line 90). -/
def onDemandPath : Str := ("ec2_running_on_demand_ec2_instances").data

/-- The `instance_type` computation of `update_ec2_on_demand` (lines 94-101):
normalize `'.'.join(['ec2', limit_name])`; if it equals the fixed path the
instance type is `'total'`, otherwise it is
`next(word for word in limit_name.split(' ') if '.' in word)`, which raises
`StopIteration` when no space-separated word of the raw name contains `.`. -/
def instanceTypeFor (limit_name : Str) : Except PyErr Str :=
  let limit_path := normPath (joinDot (("ec2").data) limit_name)
  if limit_path = onDemandPath then .ok (("total").data)
  else
    match (pySplit ' ' limit_name).find? (fun w => w.contains '.') with
    | some w => .ok w
    | none => .error .stopIteration

/-- The per-limit loop of `update_ec2_on_demand` (lines 93-104) over the
already-sorted limits, on the gauge keyed `p`. An exception stops the loop,
keeping the writes made so far (`some e` reports it to the caller). -/
def ec2Loop (region p : Str) : List (Str × AwsLimit) → Registry → Registry × Option PyErr
  | [], st => (st, none)
  | (limit_name, limit) :: rest, st =>
    match instanceTypeFor limit_name with
    | .error e => (st, some e)
    | .ok instance_type =>
      let st := setG st p [region, ("limit").data, instance_type] limit.limit
      let st := limit.current_usage.foldl
        (fun st r => setG st p [region, ("current").data, instance_type] r.value) st
      ec2Loop region p rest st

/-- `update_ec2_on_demand(region, limits)` (lines 87-104): return unchanged
on an empty group, else obtain the gauge at the fixed path with extra label
`instance_type` and process each limit sorted by name. -/
def update_ec2_on_demand (region : Str) (limits : List (Str × AwsLimit))
    (st : Registry) : Registry × Option PyErr :=
  if limits.isEmpty then (st, none)
  else
    let pst := gauge onDemandPath (some [("instance_type").data]) st
    ec2Loop region pst.1 (sortByKey limits) pst.2

/-- `'on-demand' in key.lower()` (line 76). -/
def hasOnDemand (key : Str) : Bool := isSubstr (("on-demand").data) (pyLower key)

/-- The dict comprehension on line 76: the limits whose name contains the
case-insensitive substring `on-demand` (dict keys are distinct, so the
comprehension is this filter). -/
def onDemandGroup (svc_limits : List (Str × AwsLimit)) : List (Str × AwsLimit) :=
  svc_limits.filter (fun kv => hasOnDemand kv.1)

/-- The dict comprehension on line 77: the complementary group. -/
def generalGroup (svc_limits : List (Str × AwsLimit)) : List (Str × AwsLimit) :=
  svc_limits.filter (fun kv => !(hasOnDemand kv.1))

/-- The per-service loop in the body of `update` (lines 75-82): partition the
service's limits by the on-demand substring test, run
`update_ec2_on_demand` on the first group, then `update_service` on each
remaining limit sorted by name. An exception stops the loop, keeping all
writes made so far. (The dict comprehensions on lines 76-77 keep dict keys,
which are distinct, so they are the two complementary filters.) -/
def svcLoop (region : Str) : List (Str × List (Str × AwsLimit)) → Registry → Registry × Option PyErr
  | [], st => (st, none)
  | (service, svc_limits) :: rest, st =>
    let ec2_instances_limits := onDemandGroup svc_limits
    let other_limits := generalGroup svc_limits
    match update_ec2_on_demand region ec2_instances_limits st with
    | (st, some e) => (st, some e)
    | (st, none) =>
      let st := (sortByKey other_limits).foldl
        (fun st kv => update_service (joinDot service kv.1) kv.2.current_usage kv.2.limit region st) st
      svcLoop region rest st

/-- The usage-checking backend for one region, modelled at the collaborator
boundary: `find_usage()` either raises or succeeds, after which
`get_limits()` returns the service → limit-name → limit mapping (dicts
modelled as association lists with distinct keys). -/
inductive Checker where
  | fail (e : PyErr)
  | ok (limits : List (Str × List (Str × AwsLimit)))
deriving DecidableEq, Repr

/-- The try-block body of `update` (lines 71-82), its exception (if any)
propagating to the caller alongside the writes made before it was raised. -/
def updateBody (checker : Checker) (region : Str) (st : Registry) :
    Registry × Option PyErr :=
  match checker with
  | .fail e => (st, some e)
  | .ok limits => svcLoop region (sortByKey limits) st

/-- `update(checker, region)` (lines 69-84): the whole body runs inside
`try`/`except Exception`; any exception is caught and logged
(`logging.exception`), never re-raised. Returns the registry (all writes
made before a failure point are kept) and the list of log records emitted. -/
def update (checker : Checker) (region : Str) (st : Registry) :
    Registry × List PyErr :=
  match updateBody checker region st with
  | (st, some e) => (st, [e])
  | (st, none) => (st, [])

/-- One pass of the polling loop (lines 64-65): `update` each region's
checker in turn. -/
def runCycle (checkers : List (Str × Checker)) (st : Registry) : Registry :=
  checkers.foldl (fun st rc => (update rc.2 rc.1 st).1) st

/-- `n` iterations of the `while True` polling loop (lines 63-66); the sleep
has no effect on the registry. -/
def runCycles (checkers : List (Str × Checker)) : Nat → Registry → Registry
  | 0, st => st
  | n + 1, st => runCycles checkers n (runCycle checkers st)

/-- The end-to-end path normalization of the spec: `update` joins service and
limit name with `'.'` (line 80) and `gauge` lowercases and transliterates
the joined string (line 119). -/
def normalizePath (service limit_name : Str) : Str :=
  normPath (joinDot service limit_name)

/-! ### Helper lemmas on characters and normalization -/

theorem toNat_ofNat_valid {n : Nat} (h : n.isValidChar) : (Char.ofNat n).toNat = n := by
  unfold Char.ofNat
  rw [dif_pos h]
  rfl

theorem toLower_idem (c : Char) : c.toLower.toLower = c.toLower := by
  by_cases h : c.toNat ≥ 65 ∧ c.toNat ≤ 90
  · have hv : (c.toNat + 32).isValidChar := Or.inl (by omega)
    have ht : (Char.ofNat (c.toNat + 32)).toNat = c.toNat + 32 := toNat_ofNat_valid hv
    simp only [Char.toLower, if_pos h]
    rw [if_neg (by omega)]
  · simp only [Char.toLower, if_neg h]

theorem trantab_fix {c d : Char} (h : trantab (Char.toLower c) = some d) :
    Char.toLower d = d ∧ trantab d = some d := by
  unfold trantab at h
  split at h
  · cases h
    constructor <;> decide
  · split at h
    · cases h
    · cases h
      refine ⟨toLower_idem c, ?_⟩
      unfold trantab
      rw [if_neg ‹_›, if_neg ‹_›]

theorem normPath_cons (c : Char) (s : Str) :
    normPath (c :: s) = match trantab (Char.toLower c) with
      | some d => d :: normPath s
      | none => normPath s := by
  simp only [normPath, pyLower, List.map_cons, pyTranslate, List.filterMap_cons]
  cases trantab (Char.toLower c) <;> rfl

theorem normPath_idem (s : Str) : normPath (normPath s) = normPath s := by
  induction s with
  | nil => rfl
  | cons c s ih =>
    rw [normPath_cons]
    cases h : trantab (Char.toLower c) with
    | none => exact ih
    | some d =>
      obtain ⟨h1, h2⟩ := trantab_fix h
      rw [normPath_cons, h1, h2, ih]

theorem gauge_fst (path : Str) (extra : Option (List Str)) (st : Registry) :
    (gauge path extra st).1 = normPath path := by
  cases h : regFind st (normPath path) <;> simp [gauge, h]

/-! ### C1 -/

/-- C1: path normalization is a pure, deterministic function of
(service, limitName): it joins the two with `'.'`, lowercases the result,
then in a single left-to-right transliteration pass maps each of space,
`'-'`, `'.'` to `'_'` and deletes `'('` and `')'`; on
("EC2", "Running On-Demand m5.large Instances") it yields
"ec2_running_on_demand_m5_large_instances", and equal inputs always yield
equal paths. -/
theorem C1_normalization_pure_deterministic :
    normalizePath (("EC2").data) (("Running On-Demand m5.large Instances").data)
      = ("ec2_running_on_demand_m5_large_instances").data
    ∧ (∀ service limit_name : Str,
        normalizePath service limit_name
          = (pyLower (joinDot service limit_name)).filterMap trantab)
    ∧ trantab ' ' = some '_' ∧ trantab '-' = some '_' ∧ trantab '.' = some '_'
    ∧ trantab '(' = none ∧ trantab ')' = none
    ∧ (∀ c : Char, c ≠ ' ' → c ≠ '-' → c ≠ '.' → c ≠ '(' → c ≠ ')' →
        trantab c = some c)
    ∧ (∀ s₁ s₂ l₁ l₂ : Str, s₁ = s₂ → l₁ = l₂ →
        normalizePath s₁ l₁ = normalizePath s₂ l₂) := by
  refine ⟨by decide, fun _ _ => rfl, by decide, by decide, by decide, by decide,
    by decide, ?_, ?_⟩
  · intro c h1 h2 h3 h4 h5
    unfold trantab
    rw [if_neg (by tauto), if_neg (by tauto)]
  · intro s₁ s₂ l₁ l₂ h h'
    rw [h, h']

/-- Witness for C1 at concrete inputs. -/
theorem C1_normalization_pure_deterministic_witness :
    trantab 'x' = some 'x'
    ∧ normalizePath (("a").data) (("b").data) = normalizePath (("a").data) (("b").data) :=
  ⟨C1_normalization_pure_deterministic.2.2.2.2.2.2.2.1 'x' (by decide) (by decide)
      (by decide) (by decide) (by decide),
   C1_normalization_pure_deterministic.2.2.2.2.2.2.2.2 (("a").data) (("a").data)
      (("b").data) (("b").data) rfl rfl⟩

/-! ### C10 -/

/-- C10: the normalization applied inside `gauge`
(`path.lower().translate(trantab)`) is idempotent on every string; in
particular the canonical on-demand path is its own normal form, so
`update_ec2_on_demand` may pass the already-canonical constant to `gauge`
(which normalizes it again) and compare a normalized limit path against the
raw constant: normalizing the argument first never changes the registry key
`gauge` uses. -/
theorem C10_normalization_idempotent :
    (∀ s : Str, normPath (normPath s) = normPath s)
    ∧ normPath onDemandPath = onDemandPath
    ∧ (∀ path extra st, (gauge (normPath path) extra st).1 = (gauge path extra st).1) := by
  refine ⟨normPath_idem, by decide, ?_⟩
  intro path extra st
  rw [gauge_fst, gauge_fst, normPath_idem]

/-! ### C4 -/

/-- C4: the gauge registry's get-or-create keeps each registered path mapped
to exactly one gauge whose label-set is fixed at creation: when the
normalized path is absent, a gauge with labels
`['region', 'type'] + extra_labels` and no values is appended under it;
when it is present, the registry is returned unchanged and the extra labels
passed are ignored (any two calls with the same path agree); and every
already-registered path keeps its series across any call, so the registry
only grows. -/
theorem C4_registry_get_or_create :
    (∀ path extra st, regFind st (normPath path) = none →
        gauge path extra st
          = (normPath path,
             st ++ [(normPath path,
                     ⟨[("region").data, ("type").data] ++ extra.getD [], []⟩)]))
    ∧ (∀ path extra st g, regFind st (normPath path) = some g →
        gauge path extra st = (normPath path, st))
    ∧ (∀ path extra extra' st, regFind st (normPath path) ≠ none →
        gauge path extra st = gauge path extra' st)
    ∧ (∀ path extra st q g, regFind st q = some g →
        regFind (gauge path extra st).2 q = some g) := by
  refine ⟨?_, ?_, ?_, ?_⟩
  · intro path extra st h
    simp [gauge, h]
  · intro path extra st g h
    simp [gauge, h]
  · intro path extra extra' st h
    obtain ⟨g, hg⟩ := Option.ne_none_iff_exists'.mp h
    simp [gauge, hg]
  · intro path extra st q g h
    cases hf : regFind st (normPath path) with
    | some g' => simpa [gauge, hf] using h
    | none =>
      have hst : (gauge path extra st).2
          = st ++ [(normPath path,
              ⟨[("region").data, ("type").data] ++ extra.getD [], []⟩)] := by
        simp [gauge, hf]
      rw [hst]
      simp only [regFind, List.find?_append] at h ⊢
      obtain ⟨kv, hkv, hg⟩ := Option.map_eq_some'.mp h
      rw [hkv]
      simp [hg]

/-- Witness for C4: first call on an empty registry creates the series with
the extra label; the second call on the resulting registry ignores the extra
labels passed. -/
theorem C4_registry_get_or_create_witness :
    gauge (("A B").data) (some [("instance_type").data]) []
      = (normPath (("A B").data),
         [] ++ [(normPath (("A B").data),
                 ⟨[("region").data, ("type").data]
                    ++ (some [("instance_type").data]).getD [], []⟩)])
    ∧ gauge (("A B").data) (some [("instance_type").data])
        [(normPath (("A B").data),
          ⟨[("region").data, ("type").data, ("instance_type").data], []⟩)]
      = gauge (("A B").data) none
        [(normPath (("A B").data),
          ⟨[("region").data, ("type").data, ("instance_type").data], []⟩)] :=
  ⟨C4_registry_get_or_create.1 (("A B").data) (some [("instance_type").data]) []
      (by decide),
   C4_registry_get_or_create.2.2.1 (("A B").data) (some [("instance_type").data]) none
      [(normPath (("A B").data),
        ⟨[("region").data, ("type").data, ("instance_type").data], []⟩)]
      (by decide)⟩

/-! ### C2 -/

/-- C2: for a limit in the EC2-on-demand group, if the limit name's
normalized path equals `ec2_running_on_demand_ec2_instances` the
instance_type label is the literal `total`; otherwise it is the first
space-separated token of the un-normalized limit name containing a `'.'`;
and when no dotted token exists an exception is raised
(`StopIteration` from `next`), which `update` catches and logs at the region
boundary — the per-limit processing stops there, never silently ignored. -/
theorem C2_ec2_instance_type :
    (∀ name : Str, normPath (joinDot (("ec2").data) name) = onDemandPath →
        instanceTypeFor name = .ok (("total").data))
    ∧ (∀ name w, normPath (joinDot (("ec2").data) name) ≠ onDemandPath →
        (pySplit ' ' name).find? (fun t => t.contains '.') = some w →
        instanceTypeFor name = .ok w)
    ∧ (∀ name, normPath (joinDot (("ec2").data) name) ≠ onDemandPath →
        (pySplit ' ' name).find? (fun t => t.contains '.') = none →
        instanceTypeFor name = .error .stopIteration)
    ∧ (∀ region service name limit st e, hasOnDemand name = true →
        instanceTypeFor name = .error e →
        update (.ok [(service, [(name, limit)])]) region st
          = ((update_ec2_on_demand region [(name, limit)] st).1, [e])) := by
  refine ⟨?_, ?_, ?_, ?_⟩
  · intro name h
    simp [instanceTypeFor, h]
  · intro name w h hw
    simp only [instanceTypeFor, if_neg h]
    rw [hw]
  · intro name h hw
    simp only [instanceTypeFor, if_neg h]
    rw [hw]
  · intro region service name limit st e hod herr
    simp [update, updateBody, sortByKey, insertByKey, svcLoop, onDemandGroup,
      generalGroup, hod, update_ec2_on_demand, ec2Loop, herr]

/-- Witness for C2 at concrete limit names: the canonical aggregate name, a
dotted instance-type name, and a name with no dotted token, the last one
showing the logged error. -/
theorem C2_ec2_instance_type_witness :
    instanceTypeFor (("Running On-Demand EC2 instances").data)
      = .ok (("total").data)
    ∧ instanceTypeFor (("Running On-Demand m5.large Instances").data)
      = .ok (("m5.large").data)
    ∧ instanceTypeFor (("Running On-Demand Weird Instances").data)
      = .error .stopIteration
    ∧ update
        (.ok [((("ec2").data),
               [((("Running On-Demand Weird Instances").data),
                 ⟨20, []⟩)])])
        (("r1").data) []
      = ((update_ec2_on_demand (("r1").data)
            [((("Running On-Demand Weird Instances").data), ⟨20, []⟩)] []).1,
         [.stopIteration]) :=
  ⟨C2_ec2_instance_type.1 (("Running On-Demand EC2 instances").data) (by decide),
   C2_ec2_instance_type.2.1 (("Running On-Demand m5.large Instances").data)
     (("m5.large").data) (by decide) (by decide),
   C2_ec2_instance_type.2.2.1 (("Running On-Demand Weird Instances").data)
     (by decide) (by decide),
   C2_ec2_instance_type.2.2.2 (("r1").data) (("ec2").data)
     (("Running On-Demand Weird Instances").data) ⟨20, []⟩ [] .stopIteration
     (by decide) rfl⟩

/-! ### C3 -/

/-- C3: any exception raised during a region's refresh or translation is
caught at the region boundary of `update` and turned into a log record —
`update` always returns (first conjunct: every body outcome, error or not,
becomes a normal return whose log holds exactly the caught exceptions; a
refresh failure in particular leaves the registry untouched and is logged).
Consequently the cycle processes every region: the region at any position
runs on the state left by its predecessors whether or not they failed, and
the next scheduled cycle always runs on the previous cycle's result. -/
theorem C3_region_failure_isolation :
    (∀ checker region st,
        update checker region st
          = ((updateBody checker region st).1,
             match (updateBody checker region st).2 with
             | some e => [e]
             | none => []))
    ∧ (∀ e region st, update (.fail e) region st = (st, [e]))
    ∧ (∀ pre post r c st,
        runCycle (pre ++ (r, c) :: post) st
          = runCycle post ((update c r (runCycle pre st)).1))
    ∧ (∀ checkers n st,
        runCycles checkers (n + 1) st = runCycles checkers n (runCycle checkers st)) := by
  refine ⟨?_, fun e region st => rfl, ?_, fun checkers n st => rfl⟩
  · intro checker region st
    rcases h : updateBody checker region st with ⟨st', e⟩
    cases e <;> simp [update, h]
  · intro pre post r c st
    simp [runCycle, List.foldl_append]

/-! ### C5 -/

/-- The value map of the gauge registered at `p` (empty when absent). -/
def gaugeValues (st : Registry) (p : Str) : List (List Str × Int) :=
  ((regFind st p).map PGauge.values).getD []

/-- The sequence of label-tuple writes `update_service` performs, in program
order: the limit write, then one write per usage entry. -/
def svcWrites (usage : List AwsLimitUsage) (limit : Int) (region : Str) :
    List (List Str × Int) :=
  ([region, ("limit").data], limit)
    :: usage.map (fun r => ([region, metricTypeOf r], r.value))

theorem find?_filter_ne (vals : List (List Str × Int)) (lv lv' : List Str) (h : lv' ≠ lv) :
    (vals.filter (fun e => !(e.1 == lv))).find? (fun e => e.1 == lv')
      = vals.find? (fun e => e.1 == lv') := by
  induction vals with
  | nil => rfl
  | cons e vals ih =>
    cases hb : (e.1 == lv) with
    | true =>
      have he : e.1 = lv := by simpa using hb
      have hb' : (e.1 == lv') = false := by
        simp only [beq_eq_false_iff_ne, ne_eq, he]
        exact fun hh => h hh.symm
      simp [List.filter_cons, hb, List.find?_cons, hb', ih]
    | false =>
      cases hb' : (e.1 == lv') with
      | true => simp [List.filter_cons, hb, List.find?_cons, hb']
      | false => simp [List.filter_cons, hb, List.find?_cons, hb', ih]

theorem lookupVal_setValue (vals : List (List Str × Int)) (lv lv' : List Str) (x : Int) :
    lookupVal (setValue vals lv x) lv' = if lv' = lv then some x else lookupVal vals lv' := by
  by_cases h : lv' = lv
  · subst h; simp [lookupVal, setValue, List.find?_cons]
  · have hb : (lv == lv') = false := by
      simp only [beq_eq_false_iff_ne, ne_eq]
      exact fun hh => h hh.symm
    simp only [lookupVal, setValue, List.find?_cons, if_neg h, hb]
    rw [find?_filter_ne vals lv lv' h]

theorem regFind_setG (st : Registry) (p : Str) (lv : List Str) (x : Int) (q : Str) :
    regFind (setG st p lv x) q
      = (regFind st q).map
          (fun g => if q = p then ⟨g.labelNames, setValue g.values lv x⟩ else g) := by
  induction st with
  | nil => rfl
  | cons kv st ih =>
    unfold setG regFind at ih ⊢
    simp only [List.map_cons, List.find?_cons]
    cases hp : (kv.1 == p) with
    | true =>
      have hp' : kv.1 = p := by simpa using hp
      cases hq : (kv.1 == q) with
      | true =>
        have hq' : kv.1 = q := by simpa using hq
        have hqp : q = p := by rw [← hq', hp']
        simp [hp, hq, hqp]
      | false => simpa [hp, hq] using ih
    | false =>
      cases hq : (kv.1 == q) with
      | true =>
        have hq' : kv.1 = q := by simpa using hq
        have hqp : ¬ (q = p) := by
          rw [← hq']
          simpa using hp
        simp [hp, hq, hqp]
      | false => simpa [hp, hq] using ih

theorem gaugeValues_setG_self (st : Registry) (p : Str) (lv : List Str) (x : Int)
    (h : regFind st p ≠ none) :
    gaugeValues (setG st p lv x) p = setValue (gaugeValues st p) lv x := by
  obtain ⟨g, hg⟩ := Option.ne_none_iff_exists'.mp h
  simp [gaugeValues, regFind_setG, hg]

theorem regFind_setG_ne_none (st : Registry) (p q : Str) (lv : List Str) (x : Int)
    (h : regFind st q ≠ none) : regFind (setG st p lv x) q ≠ none := by
  rw [regFind_setG]
  simpa using h

theorem regFind_gauge_self (path : Str) (extra : Option (List Str)) (st : Registry) :
    regFind (gauge path extra st).2 (normPath path) ≠ none := by
  cases h : regFind st (normPath path) with
  | some g => simp [gauge, h]
  | none =>
    have hst : (gauge path extra st).2
        = st ++ [(normPath path,
            ⟨[("region").data, ("type").data] ++ extra.getD [], []⟩)] := by
      simp [gauge, h]
    rw [hst]
    simp only [regFind, List.find?_append] at h ⊢
    simp only [Option.map_eq_none'] at h
    simp [h]

theorem lookup_foldl_setG (p : Str) (ws : List (List Str × Int)) :
    ∀ st : Registry, regFind st p ≠ none → ∀ lv,
      lookupVal (gaugeValues (ws.foldl (fun st w => setG st p w.1 w.2) st) p) lv
        = match ws.reverse.find? (fun w => w.1 == lv) with
          | some w => some w.2
          | none => lookupVal (gaugeValues st p) lv := by
  induction ws with
  | nil => intro st h lv; rfl
  | cons w ws ih =>
    intro st h lv
    have h' : regFind (setG st p w.1 w.2) p ≠ none :=
      regFind_setG_ne_none st p p w.1 w.2 h
    rw [List.foldl_cons, ih _ h' lv, List.reverse_cons, List.find?_append]
    cases hf : ws.reverse.find? (fun w => w.1 == lv) with
    | some w' => rfl
    | none =>
      simp only [Option.none_or]
      rw [gaugeValues_setG_self st p w.1 w.2 h, lookupVal_setValue]
      cases hlv : (w.1 == lv) with
      | true =>
        have : lv = w.1 := by simp at hlv; exact hlv.symm
        simp [List.find?_cons, hlv, this]
      | false =>
        have : ¬ (lv = w.1) := by simp at hlv; exact fun hh => hlv hh.symm
        simp [List.find?_cons, hlv, this]

theorem update_service_eq_writes (path : Str) (usage : List AwsLimitUsage)
    (limit : Int) (region : Str) (st : Registry) :
    update_service path usage limit region st
      = (svcWrites usage limit region).foldl
          (fun st w => setG st (normPath path) w.1 w.2) ((gauge path none st).2) := by
  simp only [update_service, svcWrites, List.foldl_cons, List.foldl_map, gauge_fst]

/-- C5: for a general-group limit the translator writes, on the gauge at the
normalized (service, limit-name) path, `{region, type='limit'}` with the
ceiling value and `{region, type=<resource id or 'current'>}` with each
usage entry's value (a non-empty resource id becomes the type, an absent one
yields `'current'`); the value finally observed at any label tuple is the
last write to that tuple in program order — writes overwrite, never
accumulate — and tuples never written keep their prior value. -/
theorem C5_general_group_emission :
    (∀ v rid, rid ≠ [] → metricTypeOf ⟨v, some rid⟩ = rid)
    ∧ (∀ v, metricTypeOf ⟨v, none⟩ = ("current").data)
    ∧ (∀ service limit_name extra st,
        (gauge (joinDot service limit_name) extra st).1 = normalizePath service limit_name)
    ∧ (∀ path usage limit region st lv,
        lookupVal (gaugeValues (update_service path usage limit region st) (normPath path)) lv
          = match (svcWrites usage limit region).reverse.find? (fun w => w.1 == lv) with
            | some w => some w.2
            | none => lookupVal (gaugeValues ((gauge path none st).2) (normPath path)) lv) := by
  refine ⟨?_, fun v => rfl, ?_, ?_⟩
  · intro v rid h
    simp [metricTypeOf, h]
  · intro service limit_name extra st
    rw [gauge_fst]
    rfl
  · intro path usage limit region st lv
    rw [update_service_eq_writes]
    exact lookup_foldl_setG (normPath path) (svcWrites usage limit region)
      ((gauge path none st).2) (regFind_gauge_self path none st) lv

/-- Witness for C5: a usage entry carrying the resource id `rid1` gets
`type=rid1`. -/
theorem C5_general_group_emission_witness :
    metricTypeOf ⟨7, some (("rid1").data)⟩ = ("rid1").data :=
  C5_general_group_emission.1 7 (("rid1").data) (by decide)

/-! ### C6 -/

theorem regFind_foldl_setG_ne_none {α : Type} (f : α → List Str) (g : α → Int) (p q : Str)
    (l : List α) : ∀ st, regFind st q ≠ none →
    regFind (l.foldl (fun st r => setG st p (f r) (g r)) st) q ≠ none := by
  induction l with
  | nil => exact fun st h => h
  | cons a l ih => exact fun st h => ih _ (regFind_setG_ne_none st p q (f a) (g a) h)

theorem regFind_ec2Loop_ne_none (region p : Str) (items : List (Str × AwsLimit)) :
    ∀ st q, regFind st q ≠ none → regFind (ec2Loop region p items st).1 q ≠ none := by
  induction items with
  | nil => exact fun st q h => h
  | cons item rest ih =>
    intro st q h
    rcases item with ⟨name, limit⟩
    unfold ec2Loop
    cases instanceTypeFor name with
    | error e => exact h
    | ok it =>
      exact ih _ q (regFind_foldl_setG_ne_none
        (fun _ => [region, ("current").data, it]) (·.value) p q limit.current_usage _
        (regFind_setG_ne_none st p q [region, ("limit").data, it] limit.limit h))

/-- C6 counterexample: the claim requires the EC2-on-demand group to be
processed only if the service is EC2, but `update` calls
`update_ec2_on_demand` for every service (line 78) and
`update_ec2_on_demand` checks only that the group is non-empty (line 88):
for the service `dynamodb` (≠ `ec2`) with the limit
`On-Demand m5.large Things`, one `update` leaves the on-demand aggregate
gauge holding 20 at `{region=r1, type=limit, instance_type=m5.large}`. -/
theorem C6_counterexample :
    ((("dynamodb").data ≠ ("ec2").data)
    ∧ lookupVal (gaugeValues ((update (.ok [((("dynamodb").data),
          [((("On-Demand m5.large Things").data), ⟨20, [⟨3, none⟩]⟩)])])
          (("r1").data) []).1) onDemandPath)
        [("r1").data, ("limit").data, ("m5.large").data] = some 20) :=
  ⟨by decide, by decide⟩

/-- C6 amended: every limit whose name contains the case-insensitive
substring "on-demand" goes to the EC2-on-demand group and every other limit
to the general group; the EC2-on-demand group is processed (emitted under
the `ec2_running_on_demand_ec2_instances` gauge) exactly when the group is
non-empty, for every service — the code never checks that the service is
EC2. -/
theorem C6_amended_partition :
    (∀ (svc_limits : List (Str × AwsLimit)) kv,
        kv ∈ onDemandGroup svc_limits ↔ kv ∈ svc_limits ∧ hasOnDemand kv.1 = true)
    ∧ (∀ (svc_limits : List (Str × AwsLimit)) kv,
        kv ∈ generalGroup svc_limits ↔ kv ∈ svc_limits ∧ hasOnDemand kv.1 = false)
    ∧ (∀ region st, update_ec2_on_demand region [] st = (st, none))
    ∧ (∀ region limits st, limits ≠ [] →
        regFind ((update_ec2_on_demand region limits st).1) onDemandPath ≠ none) := by
  refine ⟨?_, ?_, fun region st => rfl, ?_⟩
  · intro svc_limits kv
    simp [onDemandGroup, List.mem_filter]
  · intro svc_limits kv
    simp [generalGroup, List.mem_filter]
  · intro region limits st h
    cases limits with
    | nil => exact absurd rfl h
    | cons a l =>
      have hne : regFind (gauge onDemandPath (some [("instance_type").data]) st).2
          onDemandPath ≠ none := by
        have := regFind_gauge_self onDemandPath (some [("instance_type").data]) st
        rwa [show normPath onDemandPath = onDemandPath by decide] at this
      simpa [update_ec2_on_demand] using
        regFind_ec2Loop_ne_none region
          (gauge onDemandPath (some [("instance_type").data]) st).1
          (sortByKey (a :: l)) (gauge onDemandPath (some [("instance_type").data]) st).2
          onDemandPath hne

/-- Witness for the amended C6: a singleton on-demand group under a non-EC2
service leaves the aggregate gauge registered. -/
theorem C6_amended_partition_witness :
    regFind ((update_ec2_on_demand (("r1").data)
        [((("On-Demand m5.large Things").data), ⟨20, [⟨3, none⟩]⟩)] []).1)
      onDemandPath ≠ none :=
  C6_amended_partition.2.2.2 (("r1").data)
    [((("On-Demand m5.large Things").data), ⟨20, [⟨3, none⟩]⟩)] [] (by decide)

/-! ### pySplit lemmas for the override parser -/
theorem pySplit_cons (sep c : Char) (rest : Str) :
    pySplit sep (c :: rest) = match pySplit sep rest with
      | [] => [[]]
      | g :: gs => if c = sep then [] :: g :: gs else (c :: g) :: gs := rfl

theorem pySplit_ne_nil (sep : Char) (s : Str) : pySplit sep s ≠ [] := by
  cases s with
  | nil => exact fun h => List.noConfusion h
  | cons c rest =>
    rw [pySplit_cons]
    cases h : pySplit sep rest with
    | nil => exact fun h => List.noConfusion h
    | cons g gs =>
      by_cases hc : c = sep <;> simp [hc]

theorem pySplit_no_sep (sep : Char) (s : Str) (h : sep ∉ s) : pySplit sep s = [s] := by
  induction s with
  | nil => rfl
  | cons c rest ih =>
    have hc : ¬ (c = sep) := fun hh => h (hh ▸ List.mem_cons_self c rest)
    have hrest : sep ∉ rest := fun hh => h (List.mem_cons_of_mem c hh)
    rw [pySplit_cons, ih hrest]
    simp [hc]

theorem pySplit_append_sep (sep : Char) (a b : Str) (h : sep ∉ a) :
    pySplit sep (a ++ sep :: b) = a :: pySplit sep b := by
  induction a with
  | nil =>
    simp only [List.nil_append]
    rw [pySplit_cons]
    cases hb : pySplit sep b with
    | nil => exact absurd hb (pySplit_ne_nil sep b)
    | cons g gs => simp
  | cons c a ih =>
    have hc : ¬ (c = sep) := fun hh => h (hh ▸ List.mem_cons_self c a)
    have ha : sep ∉ a := fun hh => h (List.mem_cons_of_mem c hh)
    simp only [List.cons_append]
    rw [pySplit_cons, ih ha]
    simp [hc]

theorem pySplit_inv (sep : Char) : ∀ (s : Str) {g : Str} {gs : List Str},
    pySplit sep s = g :: gs →
    (gs = [] ∧ s = g ∧ sep ∉ g) ∨
    (∃ s', s = g ++ sep :: s' ∧ sep ∉ g ∧ pySplit sep s' = gs) := by
  intro s
  induction s with
  | nil =>
    intro g gs h
    cases h
    exact Or.inl ⟨rfl, rfl, by simp⟩
  | cons c rest ih =>
    intro g gs h
    rw [pySplit_cons] at h
    rcases hr : pySplit sep rest with _ | ⟨g', gs'⟩
    · exact absurd hr (pySplit_ne_nil sep rest)
    · rw [hr] at h
      dsimp only at h
      by_cases hc : c = sep
      · rw [if_pos hc] at h
        cases h
        subst hc
        exact Or.inr ⟨rest, rfl, by simp, hr⟩
      · rw [if_neg hc] at h
        cases h
        rcases ih hr with ⟨h1, h2, h3⟩ | ⟨s', h1, h2, h3⟩
        · subst h1; subst h2
          exact Or.inl ⟨rfl, rfl, by simp [Ne.symm hc, h3]⟩
        · subst h1
          exact Or.inr ⟨s', by simp, by simp [Ne.symm hc, h2], h3⟩

/-! ### C7 -/

theorem isPySpace_eq_false_of_isDigit {c : Char} (h : c.isDigit = true) :
    isPySpace c = false := by
  unfold isPySpace
  simp only [decide_eq_false_iff_not]
  rintro (h' | h' | h' | h') <;> (subst h'; exact absurd h (by decide))

theorem dropWhile_eq_self_of_digits (l : Str) (h : l.all Char.isDigit = true) :
    l.dropWhile isPySpace = l := by
  cases l with
  | nil => rfl
  | cons c rest =>
    have hc : c.isDigit = true := (List.all_cons .. ▸ h |> Bool.and_elim_left)
    rw [List.dropWhile_cons, isPySpace_eq_false_of_isDigit hc]
    rfl

theorem pyInt_digits (ds : Str) (h1 : ds ≠ []) (h2 : ds.all Char.isDigit = true) :
    pyInt ds = some ((digitsToNat ds : Int)) := by
  have hrev : ds.reverse.all Char.isDigit = true := by simpa using h2
  have hstrip : ((ds.dropWhile isPySpace).reverse.dropWhile isPySpace).reverse = ds := by
    rw [dropWhile_eq_self_of_digits ds h2, dropWhile_eq_self_of_digits _ hrev,
      List.reverse_reverse]
  unfold pyInt
  rw [hstrip]
  cases ds with
  | nil => exact absurd rfl h1
  | cons c rest =>
    have hc : c.isDigit = true := (List.all_cons .. ▸ h2 |> Bool.and_elim_left)
    have hplus : ¬ (c = '+') := fun hh => by subst hh; exact absurd hc (by decide)
    have hminus : ¬ (c = '-') := fun hh => by subst hh; exact absurd hc (by decide)
    simp only [if_neg hplus, if_neg hminus, if_pos h2]

theorem parseOverride_wellformed (r s n ds : Str)
    (hr1 : '/' ∉ r) (hs1 : '/' ∉ s) (hn1 : '/' ∉ n)
    (hr2 : '=' ∉ r) (hs2 : '=' ∉ s) (hn2 : '=' ∉ n)
    (hd1 : ds ≠ []) (hd2 : ds.all Char.isDigit = true) :
    parseOverride (r ++ '/' :: (s ++ '/' :: (n ++ '=' :: ds)))
      = .ok ⟨r, s, n, (digitsToNat ds : Int)⟩ := by
  have hdig : ∀ c, c ∈ ds → c.isDigit = true := List.all_eq_true.mp hd2
  have hds_slash : ('/' : Char) ∉ n ++ '=' :: ds := by
    intro h
    rcases List.mem_append.mp h with h | h
    · exact hn1 h
    · rcases List.mem_cons.mp h with h | h
      · exact absurd h (by decide)
      · exact absurd (hdig _ h) (by decide)
  have hslashes : pySplit '/' (r ++ '/' :: (s ++ '/' :: (n ++ '=' :: ds)))
      = [r, s, n ++ '=' :: ds] := by
    rw [pySplit_append_sep _ _ _ hr1, pySplit_append_sep _ _ _ hs1,
        pySplit_no_sep _ _ hds_slash]
  have hbefore_eq : ('=' : Char) ∉ r ++ '/' :: (s ++ '/' :: n) := by
    intro h
    rcases List.mem_append.mp h with h | h
    · exact hr2 h
    · rcases List.mem_cons.mp h with h | h
      · exact absurd h (by decide)
      · rcases List.mem_append.mp h with h | h
        · exact hs2 h
        · rcases List.mem_cons.mp h with h | h
          · exact absurd h (by decide)
          · exact hn2 h
  have hds_eq : ('=' : Char) ∉ ds := fun h => absurd (hdig _ h) (by decide)
  have heqshape : r ++ '/' :: (s ++ '/' :: (n ++ '=' :: ds))
      = (r ++ '/' :: (s ++ '/' :: n)) ++ '=' :: ds := by simp
  have heqs : pySplit '=' (r ++ '/' :: (s ++ '/' :: (n ++ '=' :: ds)))
      = [r ++ '/' :: (s ++ '/' :: n), ds] := by
    rw [heqshape, pySplit_append_sep _ _ _ hbefore_eq, pySplit_no_sep _ _ hds_eq]
  have hbsplit : pySplit '/' (r ++ '/' :: (s ++ '/' :: n)) = [r, s, n] := by
    rw [pySplit_append_sep _ _ _ hr1, pySplit_append_sep _ _ _ hs1,
        pySplit_no_sep _ _ hn1]
  simp only [parseOverride, hslashes, heqs, List.headD_cons, hbsplit]
  simp [pyInt_digits ds hd1 hd2]

theorem overridesOfLines_filter (lines : List Str) :
    overridesOfLines lines
      = overridesOfLines (lines.filter (fun l => l.contains '=')) := by
  suffices h : ∀ (ls : List Str) (acc : List LimitOverride),
      ls.foldlM overrideStep acc
        = (ls.filter (fun l => l.contains '=')).foldlM overrideStep acc by
    exact h lines []
  intro ls
  induction ls with
  | nil => intro acc; rfl
  | cons l rest ih =>
    intro acc
    rw [List.foldlM_cons, List.filter_cons]
    cases hl : l.contains '=' with
    | false =>
      have hneg : ¬ (l.contains '=' = true) := by rw [hl]; exact Bool.false_ne_true
      have hstep : overrideStep acc l = pure acc := by
        unfold overrideStep
        rw [if_neg hneg]
      rw [hstep, if_neg Bool.false_ne_true]
      exact ih acc
    | true =>
      rw [if_pos rfl, List.foldlM_cons]
      cases hp : overrideStep acc l with
      | error e => rfl
      | ok acc' => exact ih acc'

/-- C7: the override parser skips every line not containing `'='` (blank
lines included) without raising — parsing any line list equals parsing only
its qualifying lines — and a well-formed `region/service/limit-name=integer`
line yields exactly that record; in particular
`us-east-1/ec2/On-Demand m5.large=50` parses to
(us-east-1, ec2, On-Demand m5.large, 50), and a text consisting of a single
line without `'='` yields the empty collection. -/
theorem C7_override_parsing :
    (∀ lines : List Str,
        overridesOfLines lines
          = overridesOfLines (lines.filter (fun l => l.contains '=')))
    ∧ (∀ r s n ds : Str,
        '/' ∉ r → '/' ∉ s → '/' ∉ n → '=' ∉ r → '=' ∉ s → '=' ∉ n →
        ds ≠ [] → ds.all Char.isDigit = true →
        parseOverride (r ++ '/' :: (s ++ '/' :: (n ++ '=' :: ds)))
          = .ok ⟨r, s, n, (digitsToNat ds : Int)⟩)
    ∧ parseOverride (("us-east-1/ec2/On-Demand m5.large=50").data)
      = .ok ⟨("us-east-1").data, ("ec2").data, ("On-Demand m5.large").data, 50⟩
    ∧ getOverrides (("no-equals-sign").data) = .ok [] :=
  ⟨overridesOfLines_filter, parseOverride_wellformed, rfl, rfl⟩

/-- Witness for C7: the well-formed-line conjunct applied to the concrete
spec example. -/
theorem C7_override_parsing_witness :
    parseOverride ((("us-east-1").data)
        ++ '/' :: ((("ec2").data)
        ++ '/' :: ((("On-Demand m5.large").data) ++ '=' :: (("50").data))))
      = .ok ⟨("us-east-1").data, ("ec2").data, ("On-Demand m5.large").data,
             (digitsToNat (("50").data) : Int)⟩ :=
  C7_override_parsing.2.1 (("us-east-1").data) (("ec2").data)
    (("On-Demand m5.large").data) (("50").data)
    (by decide) (by decide) (by decide) (by decide) (by decide) (by decide)
    (by decide) (by decide)

/-! ### C8 -/

theorem parseOverride_eq (item : Str) :
    parseOverride item
      = match (pySplit '/' item)[1]? with
        | none => .error .indexError
        | some service =>
          match (pySplit '/' ((pySplit '=' item).headD []))[2]? with
          | none => .error .indexError
          | some limit_name =>
            match (pySplit '=' item)[1]? with
            | none => .error .indexError
            | some vs =>
              match pyInt vs with
              | none => .error .valueError
              | some v => .ok ⟨(pySplit '/' item).headD [], service, limit_name, v⟩ := rfl

/-- C8 counterexample: the claim says every line containing `'='` whose
portion before the `'='` does not have exactly three `/`-delimited parts
raises; but `a/b/c/d=5` has four parts before the `'='` and parses without
raising, silently dropping the fourth part — a partial acceptance. -/
theorem C8_counterexample :
    (("a/b/c/d=5").data).contains '=' = true
    ∧ (pySplit '/' ((pySplit '=' (("a/b/c/d=5").data)).headD [])).length = 4
    ∧ parseOverride (("a/b/c/d=5").data)
      = .ok ⟨("a").data, ("b").data, ("c").data, 5⟩ :=
  ⟨by decide, by decide, rfl⟩

/-- C8 amended: for a line containing `'='`, parsing raises exactly when the
portion before the first `'='` has fewer than three `/`-delimited parts or
the segment after the first `'='` does not parse as an integer; otherwise —
including lines with more than three parts — the record is accepted, taking
the first three parts as region, service and limit-name (any further parts
are silently dropped) and the parsed integer as the value. -/
theorem C8_amended_shape :
    ∀ item : Str, item.contains '=' = true →
      ((((pySplit '/' ((pySplit '=' item).headD [])).length < 3
          ∨ pyInt ((pySplit '=' item).getD 1 []) = none) →
        ∃ e, parseOverride item = .error e)
      ∧ (∀ v, (pySplit '/' ((pySplit '=' item).headD [])).length ≥ 3 →
          pyInt ((pySplit '=' item).getD 1 []) = some v →
          parseOverride item
            = .ok ⟨(pySplit '/' ((pySplit '=' item).headD [])).headD [],
                   (pySplit '/' ((pySplit '=' item).headD [])).getD 1 [],
                   (pySplit '/' ((pySplit '=' item).headD [])).getD 2 [], v⟩)) := by
  intro item hc
  have hmem : ('=' : Char) ∈ item := by simpa using hc
  obtain ⟨b, gs, hbgs⟩ : ∃ b gs, pySplit '=' item = b :: gs := by
    cases h : pySplit '=' item with
    | nil => exact absurd h (pySplit_ne_nil '=' item)
    | cons b gs => exact ⟨b, gs, rfl⟩
  rcases pySplit_inv '=' item hbgs with ⟨hgs, hitem, hnb⟩ | ⟨s', hitem, hnb, hgs⟩
  · exact absurd (hitem ▸ hmem) hnb
  have hgs_ne : gs ≠ [] := hgs ▸ pySplit_ne_nil '=' s'
  have hhead : (pySplit '=' item).headD [] = b := by rw [hbgs]; rfl
  have he1 : (pySplit '=' item)[1]? = some (gs.headD []) := by
    rw [hbgs]
    cases gs with
    | nil => exact absurd rfl hgs_ne
    | cons g1 grest => simp
  have hget : (pySplit '=' item).getD 1 [] = gs.headD [] := by
    rw [hbgs]
    cases gs with
    | nil => exact absurd rfl hgs_ne
    | cons g1 grest => simp
  constructor
  · intro herr
    cases hs1 : (pySplit '/' item)[1]? with
    | none => exact ⟨.indexError, by simp only [parseOverride_eq, hs1]⟩
    | some service =>
      rcases herr with hlen | hint
      · have h2 : (pySplit '/' ((pySplit '=' item).headD []))[2]? = none :=
          List.getElem?_eq_none (by omega)
        exact ⟨.indexError, by simp only [parseOverride_eq, hs1, h2]⟩
      · cases h2 : (pySplit '/' ((pySplit '=' item).headD []))[2]? with
        | none => exact ⟨.indexError, by simp only [parseOverride_eq, hs1, h2]⟩
        | some limit_name =>
          have hint' : pyInt (gs.headD []) = none := by rw [← hget]; exact hint
          exact ⟨.valueError, by simp only [parseOverride_eq, hs1, h2, he1, hint']⟩
  · intro v hlen hint
    rw [hhead] at hlen ⊢
    obtain ⟨b0, b1, b2, brest, hbp⟩ :
        ∃ b0 b1 b2 brest, pySplit '/' b = b0 :: b1 :: b2 :: brest := by
      rcases hb : pySplit '/' b with _ | ⟨x0, _ | ⟨x1, _ | ⟨x2, xs⟩⟩⟩
      · exact absurd hb (pySplit_ne_nil '/' b)
      · rw [hb] at hlen; simp at hlen
      · rw [hb] at hlen; simp at hlen
      · exact ⟨x0, x1, x2, xs, rfl⟩
    rcases pySplit_inv '/' b hbp with ⟨h1, _, _⟩ | ⟨t1, hb_eq, hnb0, ht1⟩
    · exact absurd h1 (by simp)
    rcases pySplit_inv '/' t1 ht1 with ⟨h1, _, _⟩ | ⟨t2, ht1_eq, hnb1, ht2⟩
    · exact absurd h1 (by simp)
    have hitem2 : item = b0 ++ '/' :: (t1 ++ '=' :: s') := by
      rw [hitem, hb_eq]; simp
    have ht1s : t1 ++ '=' :: s' = b1 ++ '/' :: (t2 ++ '=' :: s') := by
      rw [ht1_eq]; simp
    have hslashes : pySplit '/' item
        = b0 :: b1 :: pySplit '/' (t2 ++ '=' :: s') := by
      rw [hitem2, pySplit_append_sep _ _ _ hnb0, ht1s, pySplit_append_sep _ _ _ hnb1]
    have hs1 : (pySplit '/' item)[1]? = some b1 := by rw [hslashes]; simp
    have hregion : (pySplit '/' item).headD [] = b0 := by rw [hslashes]; rfl
    have hb2 : (pySplit '/' ((pySplit '=' item).headD []))[2]? = some b2 := by
      rw [hhead, hbp]; simp
    have hint' : pyInt (gs.headD []) = some v := by rw [← hget]; exact hint
    simp only [parseOverride_eq, hs1, hb2, he1, hint', hregion, hbp]
    simp

/-- Witness for the amended C8: `a/b=5` (two parts) raises and `a/b/c/d=5`
(four parts) is accepted. -/
theorem C8_amended_shape_witness :
    (∃ e, parseOverride (("a/b=5").data) = .error e)
    ∧ parseOverride (("a/b/c/d=5").data)
      = .ok ⟨(pySplit '/' ((pySplit '=' (("a/b/c/d=5").data)).headD [])).headD [],
             (pySplit '/' ((pySplit '=' (("a/b/c/d=5").data)).headD [])).getD 1 [],
             (pySplit '/' ((pySplit '=' (("a/b/c/d=5").data)).headD [])).getD 2 [], 5⟩ :=
  ⟨(C8_amended_shape (("a/b=5").data) (by decide)).1 (Or.inl (by decide)),
   (C8_amended_shape (("a/b/c/d=5").data) (by decide)).2 5 (by decide) (by decide)⟩

/-! ### C9 -/
def parseQualifying : List Str → Except PyErr (List LimitOverride)
  | [] => .ok []
  | l :: ls =>
    if l.contains '=' then do
      let o ← parseOverride l
      let os ← parseQualifying ls
      pure (o :: os)
    else parseQualifying ls

def parsedOf (l : Str) : LimitOverride :=
  match parseOverride l with
  | .ok o => o
  | .error _ => ⟨[], [], [], 0⟩

theorem foldlM_eq_parseQualifying : ∀ (ls : List Str) (acc : List LimitOverride),
    ls.foldlM overrideStep acc = (parseQualifying ls).map (fun os => acc ++ os) := by
  intro ls
  induction ls with
  | nil =>
    intro acc
    show Except.ok acc = Except.map (fun os => acc ++ os) (Except.ok [])
    show Except.ok acc = Except.ok (acc ++ [])
    rw [List.append_nil]
  | cons l rest ih =>
    intro acc
    rw [List.foldlM_cons]
    unfold overrideStep parseQualifying
    cases hl : l.contains '=' with
    | false =>
      rw [if_neg Bool.false_ne_true, if_neg Bool.false_ne_true]
      exact ih acc
    | true =>
      rw [if_pos rfl, if_pos rfl]
      cases hp : parseOverride l with
      | error e => rfl
      | ok o =>
        show List.foldlM overrideStep (acc ++ [o]) rest = _
        rw [ih (acc ++ [o])]
        cases hq : parseQualifying rest with
        | error e => rfl
        | ok os =>
          show Except.ok (acc ++ [o] ++ os) = Except.ok (acc ++ o :: os)
          rw [List.append_assoc]
          rfl

theorem overridesOfLines_eq_parseQualifying (lines : List Str) :
    overridesOfLines lines = parseQualifying lines := by
  unfold overridesOfLines
  rw [foldlM_eq_parseQualifying]
  cases parseQualifying lines <;> simp [Except.map]

theorem parseQualifying_ok_map : ∀ (ls : List Str) (out : List LimitOverride),
    parseQualifying ls = .ok out →
    out = (ls.filter (fun l => l.contains '=')).map parsedOf := by
  intro ls
  induction ls with
  | nil => intro out h; cases h; rfl
  | cons l rest ih =>
    intro out h
    rw [List.filter_cons]
    unfold parseQualifying at h
    cases hl : l.contains '=' with
    | false =>
      rw [hl, if_neg Bool.false_ne_true] at h
      rw [if_neg Bool.false_ne_true]
      exact ih out h
    | true =>
      rw [hl, if_pos rfl] at h
      rw [if_pos rfl]
      cases hp : parseOverride l with
      | error e => rw [hp] at h; cases h
      | ok o =>
        rw [hp] at h
        cases hq : parseQualifying rest with
        | error e => rw [hq] at h; cases h
        | ok os =>
          rw [hq] at h
          cases h
          rw [List.map_cons]
          have : parsedOf l = o := by unfold parsedOf; rw [hp]
          rw [this, ih os hq]

theorem parseQualifying_ok_exists : ∀ ls : List Str,
    (∃ out, parseQualifying ls = .ok out)
      ↔ ∀ l ∈ ls, l.contains '=' = true → ∃ o, parseOverride l = .ok o := by
  intro ls
  induction ls with
  | nil => simp [parseQualifying]
  | cons l rest ih =>
    constructor
    · rintro ⟨out, h⟩ x hx hcx
      unfold parseQualifying at h
      rcases List.mem_cons.mp hx with hx | hx
      · subst hx
        rw [if_pos hcx] at h
        cases hp : parseOverride x with
        | error e => rw [hp] at h; cases h
        | ok o => exact ⟨o, rfl⟩
      · cases hl : l.contains '=' with
        | false =>
          rw [hl, if_neg Bool.false_ne_true] at h
          exact ih.mp ⟨out, h⟩ x hx hcx
        | true =>
          rw [hl, if_pos rfl] at h
          cases hp : parseOverride l with
          | error e => rw [hp] at h; cases h
          | ok o =>
            rw [hp] at h
            cases hq : parseQualifying rest with
            | error e => rw [hq] at h; cases h
            | ok os => exact ih.mp ⟨os, hq⟩ x hx hcx
    · intro hall
      unfold parseQualifying
      cases hl : l.contains '=' with
      | false =>
        rw [if_neg Bool.false_ne_true]
        exact ih.mpr (fun x hx hcx => hall x (List.mem_cons_of_mem l hx) hcx)
      | true =>
        rw [if_pos rfl]
        obtain ⟨o, hp⟩ := hall l (List.mem_cons_self l rest) hl
        rw [hp]
        obtain ⟨os, hq⟩ := ih.mpr (fun x hx hcx => hall x (List.mem_cons_of_mem l hx) hcx)
        rw [hq]
        exact ⟨o :: os, rfl⟩

/-- C9 counterexample: two identical override lines produce two records; the
collection contains the quadruple (a, b, c, 1) twice, not once —
`_Limit_Override` objects compare by identity, so the Python set does not
collapse duplicates. -/
theorem C9_counterexample :
    getOverrides (("a/b/c=1\na/b/c=1").data)
      = .ok [⟨("a").data, ("b").data, ("c").data, 1⟩,
             ⟨("a").data, ("b").data, ("c").data, 1⟩]
    ∧ [⟨("a").data, ("b").data, ("c").data, 1⟩,
       ⟨("a").data, ("b").data, ("c").data, 1⟩].count
        (⟨("a").data, ("b").data, ("c").data, 1⟩ : LimitOverride) = 2 :=
  ⟨rfl, by decide⟩

/-- C9 amended: the parse result holds exactly one record per qualifying
line — each line parsed independently of the others — so records from
duplicate lines remain distinct (the Python set compares overrides by
object identity and duplicates do not collapse); the multiset of records
does not depend on line order: permuting the input lines permutes the
successful result. -/
theorem C9_amended_collection :
    (∀ lines, overridesOfLines lines = parseQualifying lines)
    ∧ (∀ lines out, overridesOfLines lines = .ok out →
        out = (lines.filter (fun l => l.contains '=')).map parsedOf)
    ∧ (∀ l₁ l₂ out₁, l₁.Perm l₂ → overridesOfLines l₁ = .ok out₁ →
        ∃ out₂, overridesOfLines l₂ = .ok out₂ ∧ out₁.Perm out₂) := by
  have hA := overridesOfLines_eq_parseQualifying
  refine ⟨hA, ?_, ?_⟩
  · intro lines out h
    exact parseQualifying_ok_map lines out (hA lines ▸ h)
  · intro l₁ l₂ out₁ hperm h1
    have h1' : parseQualifying l₁ = .ok out₁ := hA l₁ ▸ h1
    have hex : ∃ out₂, parseQualifying l₂ = .ok out₂ := by
      rw [parseQualifying_ok_exists]
      intro l hl hcl
      exact (parseQualifying_ok_exists l₁).mp ⟨out₁, h1'⟩ l (hperm.mem_iff.mpr hl) hcl
    obtain ⟨out₂, h2⟩ := hex
    refine ⟨out₂, hA l₂ ▸ h2, ?_⟩
    rw [parseQualifying_ok_map l₁ out₁ h1', parseQualifying_ok_map l₂ out₂ h2]
    exact (hperm.filter _).map parsedOf

/-- Witness for the amended C9: swapping two override lines permutes the
resulting records. -/
theorem C9_amended_collection_witness :
    ∃ out₂, overridesOfLines [("x/y/z=2").data, ("a/b/c=1").data] = .ok out₂
      ∧ ([⟨("a").data, ("b").data, ("c").data, 1⟩,
          ⟨("x").data, ("y").data, ("z").data, 2⟩] : List LimitOverride).Perm out₂ :=
  C9_amended_collection.2.2 [("a/b/c=1").data, ("x/y/z=2").data]
    [("x/y/z=2").data, ("a/b/c=1").data]
    [⟨("a").data, ("b").data, ("c").data, 1⟩,
     ⟨("x").data, ("y").data, ("z").data, 2⟩]
    (List.Perm.swap _ _ _) rfl


end ALC
